import Mathlib

/-!
Shallow embedding of `src/ai_targhe/app/plate_recognizer.py`.

Conventions of the embedding:
* Python floats are idealized as rationals (`ℚ`); the float literals `0.1`,
  `0.15`, `0.3`, `0.45` of the source become `1/10`, `15/100`, `3/10`,
  `45/100`.  Division on `ℚ` is total with `x / 0 = 0`; the source never
  divides by zero on the paths modelled here except inside `rectIoU`, where
  OpenCV would produce a NaN for two zero-area rectangles (noted there).
* The Tesseract OCR backend is opaque (spec §6): its output for one cropped
  region is a list, per preprocessing strategy in the fixed source order
  Otsu / adaptive / grayscale, of `(text, conf)` fragments.  A fragment
  confidence is `Option ℚ`: `none` models the literal string `"-1"` that the
  code compares against (line 89/99), `some c` a numeric value `c`.
* The image-processing calls (`cv2.resize`, `cvtColor`, the two thresholds)
  only produce the images handed to Tesseract, so they are absorbed into the
  opaque OCR function; the crop-emptiness test that gates the OCR call is
  modelled exactly (including numpy's negative-index slice semantics).
-/

namespace AiTarghe

/-- Python `int()` applied to a numeric value: truncation toward zero. -/
def pyInt (q : ℚ) : ℤ := if 0 ≤ q then ⌊q⌋ else ⌈q⌉

/-- Python `round()` on a number: round half to even (banker's rounding). -/
def pyRound (q : ℚ) : ℤ :=
  if q - ⌊q⌋ = 1/2 then (if ⌊q⌋ % 2 = 0 then ⌊q⌋ else ⌊q⌋ + 1) else ⌊q + 1/2⌋

/-- Python `round(q, 3)` as used on the confidences in `detect` (lines 184-185). -/
def pyRound3 (q : ℚ) : ℚ := (pyRound (q * 1000) : ℚ) / 1000

/-- `max(0, min(v, hi))`: the clamping applied to mapped coordinates (lines 175-178). -/
def clampI (hi v : ℤ) : ℤ := max 0 (min v hi)

/-- The characters Python `str.strip()` removes. -/
def pyWhitespace (c : Char) : Bool :=
  c == ' ' || c == '\t' || c == '\n' || c == '\r' || c == '\x0b' || c == '\x0c'

/-- Python `str.strip()`. -/
def pyStrip (s : String) : String :=
  ⟨((s.data.dropWhile pyWhitespace).reverse.dropWhile pyWhitespace).reverse⟩

/-- Python `str.upper()` (ASCII part; the alphabet in play here is ASCII). -/
def pyUpper (s : String) : String := ⟨s.data.map Char.toUpper⟩

/-- `.replace(" ", "").replace("-", "")`: removing every space and hyphen. -/
def dropSpaceHyphen (s : String) : String :=
  ⟨s.data.filter (fun c => !(c == ' ' || c == '-'))⟩

/-- Normalization of one individual OCR fragment (line 86):
`text.strip().upper().replace(" ", "").replace("-", "")`. -/
def normIndiv (s : String) : String := dropSpaceHyphen (pyUpper (pyStrip s))

/-- Normalization of a fragment inside the concatenated full line (line 97):
`text.upper().replace(" ", "").replace("-", "")` - note: NOT stripped. -/
def normFull (s : String) : String := dropSpaceHyphen (pyUpper s)

def isUpperAZ (c : Char) : Bool := 'A' ≤ c && c ≤ 'Z'

/-- The digit class `\d` of the source regex.  Python's `\d` also accepts
non-ASCII Unicode decimal digits; the development restricts attention to the
ASCII digits `0`-`9` (the only digits the spec's grammar and the allow-list
mention), which is exact on every input considered in this file. -/
def isDigitPy (c : Char) : Bool := c.isDigit

/-- The 7-character core of `ITALIAN_PLATE_REGEX = ^[A-Z]{2}\d{3}[A-Z]{2}$` (line 17). -/
def plateCore : List Char → Bool
  | [c1, c2, c3, c4, c5, c6, c7] =>
    isUpperAZ c1 && isUpperAZ c2 && isDigitPy c3 && isDigitPy c4 && isDigitPy c5 &&
      isUpperAZ c6 && isUpperAZ c7
  | _ => false

/-- `ITALIAN_PLATE_REGEX.match(s)` as a Boolean.  Python `re.match` anchors at
the start, and `$` (without `re.MULTILINE`) matches at the end of the string
OR just before one newline that ends the string, so a match succeeds exactly
on the 7-character core or on the core followed by a single trailing `\n`. -/
def plateMatch (s : String) : Bool :=
  plateCore s.data ||
    (match s.data.getLast? with
     | some c => c == '\n' && plateCore s.data.dropLast
     | none => false)

/-- One OCR fragment: `(data["text"][i], data["conf"][i])`; `none` confidence
models the sentinel string `"-1"`. -/
abbrev Frag := String × Option ℚ

def OCR_CONFIDENCE_THRESHOLD : ℚ := 3/10

/-- Line 89: `conf = float(data["conf"][i]) / 100.0 if data["conf"][i] != "-1" else 0.0`. -/
def indivConf : Option ℚ → ℚ
  | none => 0
  | some c => c / 100

/-- Lines 85-94, one loop iteration over an individual fragment: normalize the
text, skip it when empty, and make it the running best when it meets the OCR
threshold, matches the plate regex, and strictly beats the best confidence. -/
def indivStep (acc : Option String × ℚ) (f : Frag) : Option String × ℚ :=
  let text := normIndiv f.1
  if text = "" then acc
  else if OCR_CONFIDENCE_THRESHOLD ≤ indivConf f.2 ∧ plateMatch text = true then
    if acc.2 < indivConf f.2 then (some text, indivConf f.2) else acc
  else acc

/-- Line 99, the list `[float(data["conf"][i]) / 100.0 for i in range(n) if data["conf"][i] != "-1"]`. -/
def confVals (frags : List Frag) : List ℚ :=
  frags.filterMap (fun f => f.2.map (fun c => c / 100))

/-- Line 97: `full = "".join((data["text"][i] or "").upper().replace(" ", "").replace("-", "") ...)`. -/
def fullText (frags : List Frag) : String :=
  (frags.map (fun f => normFull f.1)).foldl (fun a b => a ++ b) ""

/-- Line 99: `np.mean([...non-sentinel confs...] or [0])` - the arithmetic mean
of the non-sentinel fragment confidences, `0` when there are none. -/
def fullConf (frags : List Frag) : ℚ :=
  if (confVals frags).isEmpty then 0 else (confVals frags).sum / (confVals frags).length

/-- Lines 85-105 for a single preprocessing strategy: fold the individual
fragments, then try the concatenated full line, which replaces the running
best only when it matches the regex and its mean confidence STRICTLY exceeds
the best so far (no OCR-threshold test on this path - source line 98-102). -/
def strategyScan (acc : Option String × ℚ) (frags : List Frag) : Option String × ℚ :=
  let acc1 := frags.foldl indivStep acc
  if fullText frags ≠ "" ∧ plateMatch (fullText frags) = true then
    if acc1.2 < fullConf frags then (some (fullText frags), fullConf frags) else acc1
  else acc1

/-- Lines 81-107: iterate the strategies in order; after each strategy,
`if best_text: return best_text, best_conf` (lines 104-105); after the loop,
`return None, 0.0` (line 107). -/
def tryStrategies (acc : Option String × ℚ) : List (List Frag) → Option (String × ℚ)
  | [] => none
  | fs :: rest =>
    let acc1 := strategyScan acc fs
    match acc1.1 with
    | some t => some (t, acc1.2)
    | none => tryStrategies acc1 rest

/-- Length of the numpy slice `a:b` along an axis of size `n` (negative
indices count from the end, then both ends are clipped into `[0, n]`). -/
def sliceLen (n a b : ℤ) : ℤ :=
  let a1 := if a < 0 then max 0 (n + a) else min a n
  let b1 := if b < 0 then max 0 (n + b) else min b n
  max 0 (b1 - a1)

/-- Line 48: `margin_x = int((x2 - x1) * 0.1)`. -/
def marginX (x1 x2 : ℤ) : ℤ := pyInt (((x2 - x1 : ℤ) : ℚ) * (1/10))

/-- Line 49: `margin_y = int((y2 - y1) * 0.15)`. -/
def marginY (y1 y2 : ℤ) : ℤ := pyInt (((y2 - y1 : ℤ) : ℚ) * (15/100))

/-- Lines 47-56: the crop `frame[y1m:y2m, x1m:x2m]` is empty (`.size == 0`)
iff one of its two axis lengths is zero (the channel axis has size 3). -/
def roiEmpty (hF wF x1 y1 x2 y2 : ℤ) : Bool :=
  let x1m := max 0 (x1 - marginX x1 x2)
  let y1m := max 0 (y1 - marginY y1 y2)
  let x2m := min wF (x2 + marginX x1 x2)
  let y2m := min hF (y2 + marginY y1 y2)
  sliceLen hF y1m y2m * sliceLen wF x1m x2m == 0

/-- `_recognize_plate_tesseract(frame, x1, y1, x2, y2)` (lines 45-107), with
the OCR backend's per-strategy fragment lists passed in as `strategies`
(source order: Otsu threshold, adaptive Gaussian threshold, raw grayscale).
Returns `none` for the `(None, 0.0)` outcomes. -/
def recognize (hF wF x1 y1 x2 y2 : ℤ) (strategies : List (List Frag)) : Option (String × ℚ) :=
  if roiEmpty hF wF x1 y1 x2 y2 then none
  else tryStrategies (none, 0) strategies

/-- One row of the raw YOLO output tensor after reshaping: `(*xywh, score)`. -/
structure Row where
  xc : ℚ
  yc : ℚ
  w : ℚ
  h : ℚ
  score : ℚ
  deriving DecidableEq

/-- A corner-form box `(x1, y1, x2, y2)` in 640x640 letterbox space. -/
structure Box4 where
  x1 : ℚ
  y1 : ℚ
  x2 : ℚ
  y2 : ℚ
  deriving DecidableEq

/-- An OpenCV rectangle `(x, y, w, h)`. -/
structure Rect where
  x : ℚ
  y : ℚ
  w : ℚ
  h : ℚ
  deriving DecidableEq

/-- `_xywh2xyxy` (lines 36-42). -/
def xywh2xyxy (x y w h : ℚ) : Box4 := ⟨x - w/2, y - h/2, x + w/2, y + h/2⟩

/-- A surviving detection: the raw row together with its corner-form box
(the Python code keeps parallel lists plus indices; carrying the pair is the
same data). -/
structure Det where
  row : Row
  box : Box4
  deriving DecidableEq

/-- Line 159: `detect` hands `[x1, y1, x2 - x1, y2 - y1]` to `cv2.dnn.NMSBoxes`. -/
def rectOf (b : Box4) : Rect := ⟨b.x1, b.y1, b.x2 - b.x1, b.y2 - b.y1⟩

/-- Intersection area of two OpenCV rects (`operator&`: empty when the
resulting width or height is `≤ 0`). -/
def rectInterArea (a b : Rect) : ℚ :=
  let iw := min (a.x + a.w) (b.x + b.w) - max a.x b.x
  let ih := min (a.y + a.h) (b.y + b.h) - max a.y b.y
  if iw ≤ 0 ∨ ih ≤ 0 then 0 else iw * ih

/-- OpenCV `rectOverlap`: intersection over union.  With `ℚ`'s total division
`0 / 0 = 0` here, where C++ doubles would give NaN; both sides keep the box in
that degenerate corner (NaN fails `> thr` just as `0` does not exceed `thr`). -/
def rectIoU (a b : Rect) : ℚ :=
  rectInterArea a b / (a.w * a.h + b.w * b.h - rectInterArea a b)

def detIoU (a b : Det) : ℚ := rectIoU (rectOf a.box) (rectOf b.box)

/-- A candidate is kept when its overlap with every already-kept box is `≤ thr`. -/
def nmsKeeps (thr : ℚ) (kept : List Det) (e : Det) : Bool :=
  kept.all (fun k => decide (detIoU k e ≤ thr))

/-- One step of the greedy suppression loop: append the candidate when it is
kept, drop it otherwise. -/
def nmsStep (thr : ℚ) (kept : List Det) (e : Det) : List Det :=
  if nmsKeeps thr kept e then kept ++ [e] else kept

/-- The greedy suppression loop of `cv2.dnn.NMSBoxes` (`NMSFast_`): walk the
score-sorted candidates, keeping each box whose IoU with all previously kept
boxes is at most the threshold. -/
def nmsGreedy (thr : ℚ) (l : List Det) : List Det :=
  l.foldl (nmsStep thr) []

/-- Stable insertion into a descending-by-score list: an element passes boxes
with strictly smaller score only, so equal scores keep their original order. -/
def insertDesc (e : Det) : List Det → List Det
  | [] => [e]
  | k :: ks => if k.row.score < e.row.score then e :: k :: ks else k :: insertDesc e ks

/-- The stable descending sort by score that `cv2.dnn.NMSBoxes` performs
(`std::stable_sort` with a descending score comparator). -/
def sortDesc (l : List Det) : List Det := l.foldl (fun acc e => insertDesc e acc) []

/-- `cv2.dnn.NMSBoxes(boxes, scores, score_threshold, nms_threshold)`:
drop scores not strictly above the score threshold (`GetMaxScoreIndex` keeps
`score > threshold`), stable-sort descending by score, then greedily suppress. -/
def nmsBoxes (scoreThr iouThr : ℚ) (l : List Det) : List Det :=
  nmsGreedy iouThr (sortDesc (l.filter (fun e => decide (scoreThr < e.row.score))))

/-- `_letterbox` (lines 22-33), the parameters it records for inverse mapping:
`scale = min(640/h, 640/w)`, `pad = (640 - round(side * scale)) // 2`. -/
def letterboxParams (hI wI : ℤ) : ℚ × ℤ × ℤ :=
  let scale : ℚ := min ((640 : ℚ) / (hI : ℚ)) ((640 : ℚ) / (wI : ℚ))
  let padX := Int.fdiv (640 - pyRound ((wI : ℚ) * scale)) 2
  let padY := Int.fdiv (640 - pyRound ((hI : ℚ) * scale)) 2
  (scale, padX, padY)

/-- Lines 171-178: one coordinate mapped back from 640-space to the original
image, `int((v - pad) / scale)`, clamped into `[0, bound]`. -/
def mapBack (scale : ℚ) (pad bound : ℤ) (v : ℚ) : ℤ :=
  clampI bound (pyInt ((v - (pad : ℚ)) / scale))

/-- One output record of `detect`:
`{"plate", "confidence", "yolo_confidence", "bbox"}`. -/
structure PlateRec where
  plate : String
  confidence : ℚ
  yolo_confidence : ℚ
  bx1 : ℤ
  by1 : ℤ
  bx2 : ℤ
  by2 : ℤ
  deriving DecidableEq

/-- `PlateRecognizer.detect` (lines 124-192).  The inference backend is
opaque: `rows` is the reshaped raw output tensor `(8400, 5)` as a list of
rows.  The OCR backend is opaque: `ocr x1 y1 x2 y2` is its per-strategy
fragment output for the crop of the (clamped, original-coordinates) box. -/
def detect (confThr : ℚ) (hI wI : ℤ) (rows : List Row)
    (ocr : ℤ → ℤ → ℤ → ℤ → List (List Frag)) : List PlateRec :=
  let p := letterboxParams hI wI
  let filtered := rows.filter (fun r => !decide (r.score < confThr))
  if filtered.isEmpty then []
  else
    let dets := filtered.map (fun r => Det.mk r (xywh2xyxy r.xc r.yc r.w r.h))
    let kept := nmsBoxes confThr (45/100) dets
    kept.filterMap (fun e =>
      let x1 := mapBack p.1 p.2.1 wI e.box.x1
      let y1 := mapBack p.1 p.2.2 hI e.box.y1
      let x2 := mapBack p.1 p.2.1 wI e.box.x2
      let y2 := mapBack p.1 p.2.2 hI e.box.y2
      (recognize hI wI x1 y1 x2 y2 (ocr x1 y1 x2 y2)).map (fun tc =>
        PlateRec.mk tc.1 (pyRound3 tc.2) (pyRound3 e.row.score) x1 y1 x2 y2))

/-- The `PlateRecognizer` object state visible to `detect`: its only mutable
field read by the method (`self.confidence_threshold`); the loaded network is
the opaque inference function. -/
structure PlateRecognizer where
  confidence_threshold : ℚ
  deriving DecidableEq

/-- The method `detect` reading its threshold from the object. -/
def PlateRecognizer.detectM (pr : PlateRecognizer) (hI wI : ℤ) (rows : List Row)
    (ocr : ℤ → ℤ → ℤ → ℤ → List (List Frag)) : List PlateRec :=
  detect pr.confidence_threshold hI wI rows ocr

/-- One call of the method with the object state threaded explicitly: the
method body contains no assignment to `self`, so the state comes back
unchanged next to the result list. -/
def detectCall (pr : PlateRecognizer) (hI wI : ℤ) (rows : List Row)
    (ocr : ℤ → ℤ → ℤ → ℤ → List (List Frag)) : PlateRecognizer × List PlateRec :=
  (pr, pr.detectM hI wI rows ocr)

/-- The plate grammar following the spec's words (§3 invariant, §8):
exactly 7 characters - two uppercase letters, three digits `0`-`9`, two
uppercase letters - with no other character anywhere. -/
def specPlateGrammar (s : String) : Bool := plateCore s.data

/-- The forward letterbox transform of one coordinate (spec §4.1 steps 1/6):
a point of the original image lands at `x * scale + pad` on the 640x640
canvas.  The source applies this map implicitly by resizing and centering the
image; it is spelled out here to state the round-trip property. -/
def fwdMap (scale : ℚ) (pad : ℤ) (x : ℤ) : ℚ := (x : ℚ) * scale + (pad : ℚ)

/-- The range of `data["conf"]` values Tesseract reports: the `"-1"` sentinel
(modelled as `none`) or a numeric confidence in `[0, 100]`. -/
def ConfOK : Option ℚ → Prop
  | none => True
  | some c => 0 ≤ c ∧ c ≤ 100

/-! ### Generic helper lemmas -/

theorem pyInt_intCast (n : ℤ) : pyInt (n : ℚ) = n := by
  unfold pyInt
  split <;> simp

theorem pyInt_mono {p q : ℚ} (h : p ≤ q) : pyInt p ≤ pyInt q := by
  unfold pyInt
  split <;> split
  · exact Int.floor_le_floor h
  · exact absurd (le_trans (by assumption) h) (by assumption)
  · calc ⌈p⌉ ≤ 0 := Int.ceil_le.mpr (by exact_mod_cast le_of_lt (lt_of_not_le (by assumption)))
      _ ≤ ⌊q⌋ := Int.floor_nonneg.mpr (by assumption)
  · exact Int.ceil_le_ceil h

theorem clampI_nonneg (hi v : ℤ) : 0 ≤ clampI hi v := le_max_left 0 _

theorem clampI_le_hi {hi : ℤ} (h : 0 ≤ hi) (v : ℤ) : clampI hi v ≤ hi :=
  max_le h (min_le_right v hi)

theorem clampI_of_mem {hi v : ℤ} (h0 : 0 ≤ v) (h1 : v ≤ hi) : clampI hi v = v := by
  unfold clampI
  rw [min_eq_left h1, max_eq_right h0]

theorem clampI_mono {hi v w : ℤ} (h : v ≤ w) : clampI hi v ≤ clampI hi w :=
  max_le_max le_rfl (min_le_min h le_rfl)

theorem pyRound_nonneg {q : ℚ} (h : 0 ≤ q) : 0 ≤ pyRound q := by
  unfold pyRound
  have hf : 0 ≤ ⌊q⌋ := Int.floor_nonneg.mpr h
  split
  · split <;> omega
  · exact Int.floor_nonneg.mpr (by linarith)

theorem pyRound_le {q : ℚ} {n : ℤ} (h : q ≤ (n : ℚ)) : pyRound q ≤ n := by
  unfold pyRound
  have hfn : ⌊q⌋ ≤ n := Int.floor_le_floor h |>.trans_eq (Int.floor_intCast n)
  split
  · rename_i hhalf
    have hq : q = (⌊q⌋ : ℚ) + 1/2 := by linarith
    have hlt : ⌊q⌋ < n := by
      rcases lt_or_eq_of_le hfn with hlt | heq
      · exact hlt
      · exfalso
        rw [heq] at hq
        rw [hq] at h
        norm_num at h
    split <;> omega
  · have : ⌊q + 1/2⌋ < n + 1 := Int.floor_lt.mpr (by push_cast; linarith)
    omega

theorem pyRound3_bounds {q : ℚ} (h0 : 0 ≤ q) (h1 : q ≤ 1) :
    0 ≤ pyRound3 q ∧ pyRound3 q ≤ 1 := by
  unfold pyRound3
  have hlo : 0 ≤ pyRound (q * 1000) := pyRound_nonneg (by linarith)
  have hhi : pyRound (q * 1000) ≤ 1000 := pyRound_le (by push_cast; linarith)
  constructor
  · apply div_nonneg _ (by norm_num)
    exact_mod_cast hlo
  · rw [div_le_one (by norm_num)]
    exact_mod_cast hhi

theorem list_sum_le_length (l : List ℚ) (h : ∀ v ∈ l, v ≤ 1) : l.sum ≤ (l.length : ℚ) := by
  induction l with
  | nil => simp
  | cons a t ih =>
    simp only [List.sum_cons, List.length_cons]
    have ha := h a (List.mem_cons_self a t)
    have ht := ih fun v hv => h v (List.mem_cons_of_mem a hv)
    push_cast
    linarith

theorem fullConf_bounds {fs : List Frag} (h : ∀ v ∈ confVals fs, 0 ≤ v ∧ v ≤ 1) :
    0 ≤ fullConf fs ∧ fullConf fs ≤ 1 := by
  unfold fullConf
  split
  · norm_num
  · rename_i he
    have hne : confVals fs ≠ [] := by
      intro hc
      rw [hc] at he
      simp at he
    have hlen : 0 < ((confVals fs).length : ℚ) := by
      have := List.length_pos.mpr hne
      exact_mod_cast this
    constructor
    · exact div_nonneg (List.sum_nonneg fun v hv => (h v hv).1) hlen.le
    · rw [div_le_one hlen]
      exact list_sum_le_length _ fun v hv => (h v hv).2

/-! ### Letterbox helper lemmas -/

theorem scale_pos {hI wI : ℤ} (hh : 1 ≤ hI) (hw : 1 ≤ wI) :
    0 < (letterboxParams hI wI).1 := by
  have h1 : (0 : ℚ) < (hI : ℚ) := by exact_mod_cast lt_of_lt_of_le zero_lt_one hh
  have h2 : (0 : ℚ) < (wI : ℚ) := by exact_mod_cast lt_of_lt_of_le zero_lt_one hw
  exact lt_min (div_pos (by norm_num) h1) (div_pos (by norm_num) h2)

theorem mapBack_fwdMap {scale : ℚ} (hs : 0 < scale) {pad bound v : ℤ}
    (h0 : 0 ≤ v) (h1 : v ≤ bound) :
    mapBack scale pad bound (fwdMap scale pad v) = v := by
  unfold mapBack fwdMap
  rw [add_sub_cancel_right, mul_div_cancel_right₀ _ (ne_of_gt hs), pyInt_intCast,
    clampI_of_mem h0 h1]

theorem mapBack_mono {scale : ℚ} (hs : 0 < scale) {pad bound : ℤ} {u v : ℚ} (h : u ≤ v) :
    mapBack scale pad bound u ≤ mapBack scale pad bound v := by
  apply clampI_mono
  apply pyInt_mono
  gcongr

theorem mapBack_nonneg (scale : ℚ) (pad bound : ℤ) (v : ℚ) : 0 ≤ mapBack scale pad bound v :=
  clampI_nonneg _ _

theorem mapBack_le_bound {bound : ℤ} (h : 0 ≤ bound) (scale : ℚ) (pad : ℤ) (v : ℚ) :
    mapBack scale pad bound v ≤ bound :=
  clampI_le_hi h _

/-! ### NMS helper lemmas -/

theorem nmsStep_pairwise {thr : ℚ} {kept : List Det} {e : Det}
    (h : kept.Pairwise (fun a b => detIoU a b ≤ thr)) :
    (nmsStep thr kept e).Pairwise (fun a b => detIoU a b ≤ thr) := by
  unfold nmsStep
  split
  · rename_i hk
    refine List.pairwise_append.mpr ⟨h, List.pairwise_singleton _ _, ?_⟩
    intro a ha b hb
    rw [List.mem_singleton] at hb
    subst hb
    exact of_decide_eq_true (List.all_eq_true.mp hk a ha)
  · exact h

theorem foldl_nmsStep_pairwise (thr : ℚ) :
    ∀ (l kept : List Det), kept.Pairwise (fun a b => detIoU a b ≤ thr) →
      (l.foldl (nmsStep thr) kept).Pairwise (fun a b => detIoU a b ≤ thr) := by
  intro l
  induction l with
  | nil => intro kept h; exact h
  | cons e t ih => intro kept h; exact ih _ (nmsStep_pairwise h)

theorem nmsGreedy_pairwise (thr : ℚ) (l : List Det) :
    (nmsGreedy thr l).Pairwise (fun a b => detIoU a b ≤ thr) :=
  foldl_nmsStep_pairwise thr l [] List.Pairwise.nil

theorem foldl_nmsStep_of_pairwise (thr : ℚ) :
    ∀ (l kept : List Det), l.Pairwise (fun a b => detIoU a b ≤ thr) →
      (∀ k ∈ kept, ∀ e ∈ l, detIoU k e ≤ thr) →
      l.foldl (nmsStep thr) kept = kept ++ l := by
  intro l
  induction l with
  | nil => intro kept _ _; simp
  | cons e t ih =>
    intro kept hp hke
    have hcond : nmsKeeps thr kept e = true :=
      List.all_eq_true.mpr fun k hk => decide_eq_true (hke k hk e (List.mem_cons_self e t))
    simp only [List.foldl_cons, nmsStep, hcond, if_true]
    rw [ih (kept ++ [e]) (List.pairwise_cons.mp hp).2 ?_]
    · simp
    · intro k hk e' he'
      rcases List.mem_append.mp hk with hk | hk
      · exact hke k hk e' (List.mem_cons_of_mem e he')
      · rw [List.mem_singleton] at hk
        subst hk
        exact (List.pairwise_cons.mp hp).1 e' he'

theorem nmsGreedy_idem (thr : ℚ) (l : List Det) :
    nmsGreedy thr (nmsGreedy thr l) = nmsGreedy thr l := by
  show (nmsGreedy thr l).foldl (nmsStep thr) [] = nmsGreedy thr l
  rw [foldl_nmsStep_of_pairwise thr _ [] (nmsGreedy_pairwise thr l) (by simp)]
  simp

/-! ### Scan invariants: accepted best candidates match the regex -/

theorem indivStep_plate {acc : Option String × ℚ} {f : Frag}
    (h : ∀ t, acc.1 = some t → plateMatch t = true) :
    ∀ t, (indivStep acc f).1 = some t → plateMatch t = true := by
  intro t ht
  simp only [indivStep] at ht
  split at ht
  · exact h t ht
  · split at ht
    · split at ht
      · rename_i hcond _
        simp only [Option.some.injEq] at ht
        rw [← ht]
        exact hcond.2
      · exact h t ht
    · exact h t ht

theorem foldl_indivStep_plate (fs : List Frag) :
    ∀ (acc : Option String × ℚ), (∀ t, acc.1 = some t → plateMatch t = true) →
      ∀ t, (fs.foldl indivStep acc).1 = some t → plateMatch t = true := by
  induction fs with
  | nil => intro acc h; exact h
  | cons a l ih => intro acc h; exact ih _ (indivStep_plate h)

theorem strategyScan_plate {acc : Option String × ℚ} {fs : List Frag}
    (h : ∀ t, acc.1 = some t → plateMatch t = true) :
    ∀ t, (strategyScan acc fs).1 = some t → plateMatch t = true := by
  intro t ht
  simp only [strategyScan] at ht
  split at ht
  · rename_i hcond
    split at ht
    · simp only [Option.some.injEq] at ht
      rw [← ht]
      exact hcond.2
    · exact foldl_indivStep_plate fs acc h t ht
  · exact foldl_indivStep_plate fs acc h t ht

theorem tryStrategies_plate :
    ∀ (L : List (List Frag)) (acc : Option String × ℚ),
      (∀ t, acc.1 = some t → plateMatch t = true) →
      ∀ t c, tryStrategies acc L = some (t, c) → plateMatch t = true := by
  intro L
  induction L with
  | nil =>
    intro acc _ t c hh
    simp [tryStrategies] at hh
  | cons fs rest ih =>
    intro acc h t c hh
    simp only [tryStrategies] at hh
    cases hm : (strategyScan acc fs).1 with
    | some t0 =>
      rw [hm] at hh
      simp only [Option.some.injEq, Prod.mk.injEq] at hh
      rw [← hh.1]
      exact strategyScan_plate h t0 hm
    | none =>
      rw [hm] at hh
      exact ih _ (strategyScan_plate h) t c hh

theorem recognize_plate {hF wF x1 y1 x2 y2 : ℤ} {strategies : List (List Frag)}
    {tc : String × ℚ} (h : recognize hF wF x1 y1 x2 y2 strategies = some tc) :
    plateMatch tc.1 = true := by
  unfold recognize at h
  split at h
  · exact absurd h (by simp)
  · obtain ⟨t, c⟩ := tc
    exact tryStrategies_plate strategies (none, 0) (by simp) t c h

/-! ### Scan invariants: confidences stay in the unit interval -/

theorem indivConf_bounds {o : Option ℚ} (h : ConfOK o) :
    0 ≤ indivConf o ∧ indivConf o ≤ 1 := by
  cases o with
  | none => simp [indivConf]
  | some c =>
    obtain ⟨h1, h2⟩ := h
    unfold indivConf
    constructor
    · exact div_nonneg h1 (by norm_num)
    · rw [div_le_one (by norm_num)]
      linarith

theorem indivStep_conf {acc : Option String × ℚ} {f : Frag} (hf : ConfOK f.2)
    (h : 0 ≤ acc.2 ∧ acc.2 ≤ 1) :
    0 ≤ (indivStep acc f).2 ∧ (indivStep acc f).2 ≤ 1 := by
  simp only [indivStep]
  split
  · exact h
  · split
    · split
      · exact indivConf_bounds hf
      · exact h
    · exact h

theorem foldl_indivStep_conf (fs : List Frag) :
    ∀ acc : Option String × ℚ, (∀ f ∈ fs, ConfOK f.2) → 0 ≤ acc.2 ∧ acc.2 ≤ 1 →
      0 ≤ (fs.foldl indivStep acc).2 ∧ (fs.foldl indivStep acc).2 ≤ 1 := by
  induction fs with
  | nil => intro acc _ h; exact h
  | cons a l ih =>
    intro acc hok h
    exact ih _ (fun f hf => hok f (List.mem_cons_of_mem a hf))
      (indivStep_conf (hok a (List.mem_cons_self a l)) h)

theorem confVals_bounds {fs : List Frag} (h : ∀ f ∈ fs, ConfOK f.2) :
    ∀ v ∈ confVals fs, 0 ≤ v ∧ v ≤ 1 := by
  intro v hv
  unfold confVals at hv
  rw [List.mem_filterMap] at hv
  obtain ⟨f, hf, hmap⟩ := hv
  cases hc : f.2 with
  | none =>
    rw [hc] at hmap
    simp at hmap
  | some c =>
    rw [hc] at hmap
    simp only [Option.map_some', Option.some.injEq] at hmap
    have hok := h f hf
    rw [hc] at hok
    obtain ⟨h1, h2⟩ := hok
    rw [← hmap]
    constructor
    · exact div_nonneg h1 (by norm_num)
    · rw [div_le_one (by norm_num)]
      linarith

theorem strategyScan_conf {acc : Option String × ℚ} {fs : List Frag}
    (hok : ∀ f ∈ fs, ConfOK f.2) (h : 0 ≤ acc.2 ∧ acc.2 ≤ 1) :
    0 ≤ (strategyScan acc fs).2 ∧ (strategyScan acc fs).2 ≤ 1 := by
  simp only [strategyScan]
  have h1 := foldl_indivStep_conf fs acc hok h
  split
  · split
    · exact fullConf_bounds (confVals_bounds hok)
    · exact h1
  · exact h1

theorem tryStrategies_conf :
    ∀ (L : List (List Frag)) (acc : Option String × ℚ),
      (∀ fs ∈ L, ∀ f ∈ fs, ConfOK f.2) → 0 ≤ acc.2 ∧ acc.2 ≤ 1 →
      ∀ t c, tryStrategies acc L = some (t, c) → 0 ≤ c ∧ c ≤ 1 := by
  intro L
  induction L with
  | nil =>
    intro acc _ _ t c hh
    simp [tryStrategies] at hh
  | cons fs rest ih =>
    intro acc hok h t c hh
    simp only [tryStrategies] at hh
    have hs := strategyScan_conf (hok fs (List.mem_cons_self fs rest)) h
    cases hm : (strategyScan acc fs).1 with
    | some t0 =>
      rw [hm] at hh
      simp only [Option.some.injEq, Prod.mk.injEq] at hh
      rw [← hh.2]
      exact hs
    | none =>
      rw [hm] at hh
      exact ih _ (fun g hg f hf => hok g (List.mem_cons_of_mem fs hg) f hf) hs t c hh

theorem recognize_conf {hF wF x1 y1 x2 y2 : ℤ} {strategies : List (List Frag)}
    {tc : String × ℚ} (hok : ∀ fs ∈ strategies, ∀ f ∈ fs, ConfOK f.2)
    (h : recognize hF wF x1 y1 x2 y2 strategies = some tc) :
    0 ≤ tc.2 ∧ tc.2 ≤ 1 := by
  unfold recognize at h
  split at h
  · exact absurd h (by simp)
  · obtain ⟨t, c⟩ := tc
    exact tryStrategies_conf strategies (none, 0) hok (by norm_num) t c h

/-! ### Claims C1, C2, C3, C4 -/

/-- Claim C1 (counterexample): with OCR fragments `("AB123CD", conf 10)` and
`("\n", sentinel)`, the full-line candidate is the 8-character string
`"AB123CD\n"` - Python's `$` matches just before the trailing newline, so
`re.match` accepts it - and detect returns it as a plate even though it fails
the spec grammar (exactly 7 characters). -/
theorem C1_counterexample :
    detect (1/2) 100 100 [⟨320, 320, 320, 320, 9/10⟩]
      (fun _ _ _ _ => [[("AB123CD", some 10), ("\n", none)], [], []]) =
      [⟨"AB123CD\n", 1/10, 9/10, 25, 25, 75, 75⟩]
    ∧ specPlateGrammar "AB123CD\n" = false := by
  with_unfolding_all decide

/-- Claim C1 (amended): every plate string in a record returned by detect
matches the source regex acceptance: it is either exactly two uppercase
letters, three digits and two uppercase letters, or such a 7-character core
followed by one trailing newline (Python `$` matches just before a final
newline, and the concatenated full-line candidate is not stripped). -/
theorem C1_amended_theorem (confThr : ℚ) (hI wI : ℤ) (rows : List Row)
    (ocr : ℤ → ℤ → ℤ → ℤ → List (List Frag)) :
    ∀ r ∈ detect confThr hI wI rows ocr, plateMatch r.plate = true := by
  intro r hr
  simp only [detect] at hr
  split at hr
  · simp at hr
  · rw [List.mem_filterMap] at hr
    obtain ⟨e, he, hmap⟩ := hr
    obtain ⟨tc, hrec, hmk⟩ := Option.map_eq_some'.mp hmap
    rw [← hmk]
    exact recognize_plate hrec

/-- Witness for the amended C1 at a concrete run returning plate "BC234DE". -/
theorem C1_witness : plateMatch "BC234DE" = true :=
  C1_amended_theorem (1/2) 100 100 [⟨320, 320, 320, 320, 4/5⟩]
    (fun _ _ _ _ => [[("BC234DE", some 70)], [], []])
    ⟨"BC234DE", 7/10, 4/5, 25, 25, 75, 75⟩ (by with_unfolding_all decide)

/-- Claim C2 (counterexample): OCR fragments `("EF", 20)` and `("456GH", 20)`
produce no individual candidate (0.2 < 0.3 threshold), but the concatenated
candidate "EF456GH" is accepted with mean confidence 0.2 - the source checks
no OCR threshold on the full-line path - so detect returns a record whose
confidence is below the configured minimum. -/
theorem C2_counterexample :
    detect (1/2) 100 100 [⟨320, 320, 320, 320, 9/10⟩]
      (fun _ _ _ _ => [[("EF", some 20), ("456GH", some 20)], [], []]) =
      [⟨"EF456GH", 1/5, 9/10, 25, 25, 75, 75⟩]
    ∧ (1/5 : ℚ) < OCR_CONFIDENCE_THRESHOLD := by
  with_unfolding_all decide

/-- Claim C2 (amended): when every OCR backend confidence is the sentinel or
lies in the Tesseract range [0, 100], every record returned by detect has
`0 ≤ confidence ≤ 1`.  The lower bound by the OCR threshold holds only for
candidates built from individual fragments; the concatenated candidate is
accepted without the threshold check (see the counterexample). -/
theorem C2_amended_theorem (confThr : ℚ) (hI wI : ℤ) (rows : List Row)
    (ocr : ℤ → ℤ → ℤ → ℤ → List (List Frag))
    (hocr : ∀ a b c d : ℤ, ∀ fs ∈ ocr a b c d, ∀ f ∈ fs, ConfOK f.2) :
    ∀ r ∈ detect confThr hI wI rows ocr, 0 ≤ r.confidence ∧ r.confidence ≤ 1 := by
  intro r hr
  simp only [detect] at hr
  split at hr
  · simp at hr
  · rw [List.mem_filterMap] at hr
    obtain ⟨e, he, hmap⟩ := hr
    obtain ⟨tc, hrec, hmk⟩ := Option.map_eq_some'.mp hmap
    have hb := recognize_conf (hocr _ _ _ _) hrec
    rw [← hmk]
    exact pyRound3_bounds hb.1 hb.2

/-- Witness for the amended C2 at a concrete run returning confidence 0.7. -/
theorem C2_witness : 0 ≤ (7/10 : ℚ) ∧ (7/10 : ℚ) ≤ 1 :=
  C2_amended_theorem (1/2) 100 100 [⟨320, 320, 320, 320, 4/5⟩]
    (fun _ _ _ _ => [[("HJ678KL", some 70)], [], []])
    (by
      intro a b c d fs hfs f hf
      simp only [List.mem_cons, List.not_mem_nil, or_false] at hfs
      rcases hfs with rfl | rfl | rfl
      · rw [List.mem_singleton] at hf
        subst hf
        exact ⟨by norm_num, by norm_num⟩
      · simp at hf
      · simp at hf)
    ⟨"HJ678KL", 7/10, 4/5, 25, 25, 75, 75⟩ (by with_unfolding_all decide)

/-- Claim C3 (counterexample): with fragments `("AB123CD", 80)` and
`("\n", sentinel)`, the individual candidate "AB123CD" and the concatenated
candidate "AB123CD\n" are both accepted (both match the source regex, both at
confidence 0.8 ≥ 0.3), their confidences are equal, and the recognizer
returns the INDIVIDUAL candidate, not the concatenated one: individual
fragments are scanned first and the concatenated candidate replaces the best
only on strictly greater confidence. -/
theorem C3_counterexample :
    recognize 100 100 25 25 75 75 [[("AB123CD", some 80), ("\n", none)], [], []] =
      some ("AB123CD", 4/5)
    ∧ fullText [("AB123CD", some 80), ("\n", none)] = "AB123CD\n"
    ∧ fullConf [("AB123CD", some 80), ("\n", none)] = 4/5
    ∧ plateMatch "AB123CD\n" = true
    ∧ OCR_CONFIDENCE_THRESHOLD ≤ (4/5 : ℚ)
    ∧ ("AB123CD" : String) ≠ "AB123CD\n" := by
  with_unfolding_all decide

/-- Claim C3 (amended): within one strategy, when the individual-fragment scan
has produced a best candidate and the concatenated candidate's mean confidence
does not strictly exceed it (in particular on ties), the strategy returns the
individual-fragment best - the concatenated candidate only wins strict
comparisons, because individuals are scanned first. -/
theorem C3_amended_theorem (fs : List Frag) (acc : Option String × ℚ) (t : String) (c : ℚ)
    (h1 : fs.foldl indivStep acc = (some t, c)) (h2 : fullConf fs ≤ c) :
    strategyScan acc fs = (some t, c) := by
  simp only [strategyScan, h1]
  split
  · rw [if_neg (show ¬ ((some t, c) : Option String × ℚ).2 < fullConf fs from not_lt.mpr h2)]
  · rfl

/-- Witness for the amended C3: a tie where the individual best is returned. -/
theorem C3_witness :
    strategyScan ((none : Option String), (0 : ℚ)) [("PR111ST", some 60), (" ", none)] =
      (some "PR111ST", 3/5) :=
  C3_amended_theorem [("PR111ST", some 60), (" ", none)] (none, 0) "PR111ST" (3/5)
    (by with_unfolding_all decide) (by with_unfolding_all decide)

/-- Claim C4 (counterexample): the Otsu strategy yields only a concatenated
candidate "GH789JK" with mean confidence 0.1, below the OCR threshold, hence
NOT an accepted candidate in the claim's sense; the adaptive strategy yields
an accepted candidate ("LM321NP", 0.9).  The code nevertheless short-circuits
on the Otsu strategy and returns its below-threshold candidate instead of the
adaptive strategy's accepted one. -/
theorem C4_counterexample :
    recognize 100 100 25 25 75 75
      [[("GH", some 10), ("789JK", some 10)], [("LM321NP", some 90)], []] =
      some ("GH789JK", 1/10)
    ∧ (1/10 : ℚ) < OCR_CONFIDENCE_THRESHOLD
    ∧ OCR_CONFIDENCE_THRESHOLD ≤ (9/10 : ℚ)
    ∧ (("GH789JK", (1/10 : ℚ)) : String × ℚ) ≠ ("LM321NP", 9/10) := by
  with_unfolding_all decide

/-- Claim C4 (amended): a strategy short-circuits the remaining strategies as
soon as it sets any best candidate (which may also be a below-threshold
concatenated candidate).  If the first strategy sets no candidate at all and
the second (adaptive) strategy sets one, the returned reading is the second
strategy's best, and the third (grayscale) strategy's OCR output is never
consulted: the result is identical for every possible third-strategy
output. -/
theorem C4_amended_theorem (f1 f2 f3 f3' : List Frag) (t : String)
    (h1 : (strategyScan (none, 0) f1).1 = none)
    (h2 : (strategyScan (strategyScan (none, 0) f1) f2).1 = some t) :
    tryStrategies (none, 0) [f1, f2, f3] =
      some (t, (strategyScan (strategyScan (none, 0) f1) f2).2)
    ∧ tryStrategies (none, 0) [f1, f2, f3] = tryStrategies (none, 0) [f1, f2, f3'] := by
  have key : ∀ g : List Frag,
      tryStrategies (none, 0) [f1, f2, g] =
        some (t, (strategyScan (strategyScan (none, 0) f1) f2).2) := by
    intro g
    simp only [tryStrategies, h1, h2]
  exact ⟨key f3, (key f3).trans (key f3').symm⟩

/-- Witness for the amended C4: only the second strategy yields a candidate,
its reading is returned, and the third strategy's output is irrelevant. -/
theorem C4_witness :
    tryStrategies ((none : Option String), (0 : ℚ))
        [[("ZZ", some 50)], [("RS654TU", some 80)], [("AA111AA", some 99)]] =
      some ("RS654TU",
        (strategyScan (strategyScan (none, 0) [("ZZ", some 50)]) [("RS654TU", some 80)]).2)
    ∧ tryStrategies ((none : Option String), (0 : ℚ))
        [[("ZZ", some 50)], [("RS654TU", some 80)], [("AA111AA", some 99)]] =
      tryStrategies (none, 0) [[("ZZ", some 50)], [("RS654TU", some 80)], []] :=
  C4_amended_theorem [("ZZ", some 50)] [("RS654TU", some 80)] [("AA111AA", some 99)] []
    "RS654TU" (by with_unfolding_all decide) (by with_unfolding_all decide)

/-! ### Membership lemmas for the detector pipeline -/

theorem mem_nmsStep {thr : ℚ} {kept : List Det} {x e : Det}
    (h : e ∈ nmsStep thr kept x) : e ∈ kept ∨ e = x := by
  unfold nmsStep at h
  split at h
  · rcases List.mem_append.mp h with h | h
    · exact Or.inl h
    · exact Or.inr (List.mem_singleton.mp h)
  · exact Or.inl h

theorem mem_foldl_nmsStep {thr : ℚ} :
    ∀ (l kept : List Det) (e : Det), e ∈ l.foldl (nmsStep thr) kept → e ∈ kept ∨ e ∈ l := by
  intro l
  induction l with
  | nil => intro kept e h; exact Or.inl h
  | cons a t ih =>
    intro kept e h
    rw [List.foldl_cons] at h
    rcases ih _ e h with h | h
    · rcases mem_nmsStep h with h | h
      · exact Or.inl h
      · exact Or.inr (h ▸ List.mem_cons_self a t)
    · exact Or.inr (List.mem_cons_of_mem a h)

theorem mem_nmsGreedy {thr : ℚ} {l : List Det} {e : Det} (h : e ∈ nmsGreedy thr l) :
    e ∈ l := by
  rcases mem_foldl_nmsStep l [] e h with h | h
  · simp at h
  · exact h

theorem mem_insertDesc {x e : Det} :
    ∀ l : List Det, e ∈ insertDesc x l → e = x ∨ e ∈ l := by
  intro l
  induction l with
  | nil =>
    intro h
    simp only [insertDesc, List.mem_singleton] at h
    exact Or.inl h
  | cons k ks ih =>
    intro h
    simp only [insertDesc] at h
    split at h
    · rcases List.mem_cons.mp h with h | h
      · exact Or.inl h
      · exact Or.inr h
    · rcases List.mem_cons.mp h with h | h
      · exact Or.inr (h ▸ List.mem_cons_self k ks)
      · rcases ih h with h | h
        · exact Or.inl h
        · exact Or.inr (List.mem_cons_of_mem k h)

theorem mem_foldl_insertDesc :
    ∀ (l acc : List Det) (e : Det),
      e ∈ l.foldl (fun acc x => insertDesc x acc) acc → e ∈ acc ∨ e ∈ l := by
  intro l
  induction l with
  | nil => intro acc e h; exact Or.inl h
  | cons a t ih =>
    intro acc e h
    rw [List.foldl_cons] at h
    rcases ih _ e h with h | h
    · rcases mem_insertDesc _ h with h | h
      · exact Or.inr (h ▸ List.mem_cons_self a t)
      · exact Or.inl h
    · exact Or.inr (List.mem_cons_of_mem a h)

theorem mem_sortDesc {l : List Det} {e : Det} (h : e ∈ sortDesc l) : e ∈ l := by
  rcases mem_foldl_insertDesc l [] e h with h | h
  · simp at h
  · exact h

theorem mem_nmsBoxes {s i : ℚ} {l : List Det} {e : Det} (h : e ∈ nmsBoxes s i l) :
    e ∈ l := by
  have h1 := mem_nmsGreedy h
  have h2 := mem_sortDesc h1
  exact (List.mem_filter.mp h2).1

/-! ### Degenerate crops -/

theorem marginX_self (x : ℤ) : marginX x x = 0 := by
  unfold marginX pyInt
  norm_num

theorem marginY_self (y : ℤ) : marginY y y = 0 := by
  unfold marginY pyInt
  norm_num

theorem sliceLen_self {n a : ℤ} (h0 : 0 ≤ a) : sliceLen n a a = 0 := by
  unfold sliceLen
  simp only [if_neg (not_lt.mpr h0)]
  omega

theorem roiEmpty_of_eqX {hF wF x1 y1 y2 : ℤ} (h0 : 0 ≤ x1) (hw : x1 ≤ wF) :
    roiEmpty hF wF x1 y1 x1 y2 = true := by
  simp only [roiEmpty, marginX_self, sub_zero, add_zero]
  rw [max_eq_right h0, min_eq_right hw, sliceLen_self h0, mul_zero]
  rfl

theorem roiEmpty_of_eqY {hF wF x1 y1 x2 : ℤ} (h0 : 0 ≤ y1) (hh : y1 ≤ hF) :
    roiEmpty hF wF x1 y1 x2 y1 = true := by
  simp only [roiEmpty, marginY_self, sub_zero, add_zero]
  rw [max_eq_right h0, min_eq_right hh, sliceLen_self h0, zero_mul]
  rfl

/-! ### Claim C7 -/

/-- Claim C7 (counterexample): a raw detector row with negative width
(xc 128, w -384 in 640-space) maps to the clamped box (50, 25, 0, 75) with
`x1 = 50 > x2 = 0`; because numpy interprets the negative slice stop `-5` as
`width - 5`, the margin-expanded crop `frame[18:82, 55:-5]` is NOT empty, OCR
runs, and detect returns a record whose bounding box violates `x1 < x2`. -/
theorem C7_counterexample :
    detect (1/2) 100 100 [⟨128, 320, -384, 320, 9/10⟩]
      (fun _ _ _ _ => [[("KL890MN", some 90)], [], []]) =
      [⟨"KL890MN", 9/10, 9/10, 50, 25, 0, 75⟩]
    ∧ ¬ ((50 : ℤ) < 0) := by
  with_unfolding_all decide

/-- Claim C7 (amended): for an image of positive size and raw detector rows
whose widths and heights are nonnegative, every record returned by detect has
its bounding box clamped into `[0, width] x [0, height]` with `x1 < x2` and
`y1 < y2`.  (For rows with negative width or height the strict inequalities
can fail - see the counterexample.) -/
theorem C7_amended_theorem (confThr : ℚ) (hI wI : ℤ) (rows : List Row)
    (ocr : ℤ → ℤ → ℤ → ℤ → List (List Frag))
    (hh : 1 ≤ hI) (hw : 1 ≤ wI) (hrows : ∀ r ∈ rows, 0 ≤ r.w ∧ 0 ≤ r.h) :
    ∀ p ∈ detect confThr hI wI rows ocr,
      0 ≤ p.bx1 ∧ p.bx1 ≤ wI ∧ 0 ≤ p.bx2 ∧ p.bx2 ≤ wI ∧
      0 ≤ p.by1 ∧ p.by1 ≤ hI ∧ 0 ≤ p.by2 ∧ p.by2 ≤ hI ∧
      p.bx1 < p.bx2 ∧ p.by1 < p.by2 := by
  intro p hp
  simp only [detect] at hp
  split at hp
  · simp at hp
  · rw [List.mem_filterMap] at hp
    obtain ⟨e, he, hmap⟩ := hp
    obtain ⟨tc, hrec, hmk⟩ := Option.map_eq_some'.mp hmap
    have hmem : e ∈ (rows.filter fun r => !decide (r.score < confThr)).map
        (fun r => Det.mk r (xywh2xyxy r.xc r.yc r.w r.h)) := mem_nmsBoxes he
    rw [List.mem_map] at hmem
    obtain ⟨r0, hr0, he0⟩ := hmem
    have hr0m : r0 ∈ rows := (List.mem_filter.mp hr0).1
    obtain ⟨hw0, hh0⟩ := hrows r0 hr0m
    subst he0
    subst hmk
    dsimp only [xywh2xyxy] at hrec ⊢
    have hs := scale_pos hh hw
    have hwI : (0 : ℤ) ≤ wI := by omega
    have hhI : (0 : ℤ) ≤ hI := by omega
    have hxle : mapBack (letterboxParams hI wI).1 (letterboxParams hI wI).2.1 wI
          (r0.xc - r0.w / 2) ≤
        mapBack (letterboxParams hI wI).1 (letterboxParams hI wI).2.1 wI
          (r0.xc + r0.w / 2) := by
      apply mapBack_mono hs
      linarith
    have hyle : mapBack (letterboxParams hI wI).1 (letterboxParams hI wI).2.2 hI
          (r0.yc - r0.h / 2) ≤
        mapBack (letterboxParams hI wI).1 (letterboxParams hI wI).2.2 hI
          (r0.yc + r0.h / 2) := by
      apply mapBack_mono hs
      linarith
    have hxne : mapBack (letterboxParams hI wI).1 (letterboxParams hI wI).2.1 wI
          (r0.xc - r0.w / 2) ≠
        mapBack (letterboxParams hI wI).1 (letterboxParams hI wI).2.1 wI
          (r0.xc + r0.w / 2) := by
      intro heq
      rw [heq] at hrec
      unfold recognize at hrec
      rw [roiEmpty_of_eqX (mapBack_nonneg _ _ _ _) (mapBack_le_bound hwI _ _ _)] at hrec
      simp at hrec
    have hyne : mapBack (letterboxParams hI wI).1 (letterboxParams hI wI).2.2 hI
          (r0.yc - r0.h / 2) ≠
        mapBack (letterboxParams hI wI).1 (letterboxParams hI wI).2.2 hI
          (r0.yc + r0.h / 2) := by
      intro heq
      rw [heq] at hrec
      unfold recognize at hrec
      rw [roiEmpty_of_eqY (mapBack_nonneg _ _ _ _) (mapBack_le_bound hhI _ _ _)] at hrec
      simp at hrec
    exact ⟨mapBack_nonneg _ _ _ _, mapBack_le_bound hwI _ _ _, mapBack_nonneg _ _ _ _,
      mapBack_le_bound hwI _ _ _, mapBack_nonneg _ _ _ _, mapBack_le_bound hhI _ _ _,
      mapBack_nonneg _ _ _ _, mapBack_le_bound hhI _ _ _,
      lt_of_le_of_ne hxle hxne, lt_of_le_of_ne hyle hyne⟩

/-- Witness for the amended C7 at a concrete 200x200 run. -/
theorem C7_witness :
    (0 : ℤ) ≤ 50 ∧ (50 : ℤ) ≤ 200 ∧ (0 : ℤ) ≤ 150 ∧ (150 : ℤ) ≤ 200 ∧
    (0 : ℤ) ≤ 50 ∧ (50 : ℤ) ≤ 200 ∧ (0 : ℤ) ≤ 150 ∧ (150 : ℤ) ≤ 200 ∧
    (50 : ℤ) < 150 ∧ (50 : ℤ) < 150 :=
  C7_amended_theorem (1/2) 200 200 [⟨320, 320, 320, 320, 4/5⟩]
    (fun _ _ _ _ => [[("FG567HJ", some 60)], [], []])
    (by norm_num) (by norm_num)
    (by
      intro r hr
      rw [List.mem_singleton] at hr
      subst hr
      exact ⟨by norm_num, by norm_num⟩)
    ⟨"FG567HJ", 3/5, 4/5, 50, 50, 150, 150⟩ (by with_unfolding_all decide)

/-! ### Claims C5, C6, C8, C9, C10 -/

/-- Claim C5: mapping a box coordinate from the original image through the
forward letterbox transform (uniform scale `min(640/h, 640/w)`, centered
padding on a 640x640 canvas) and then through the inverse transform
`orig = int((letterboxed - pad) / scale)` with clamping reproduces the
original coordinate within integer rounding (each coordinate differs by at
most 1 pixel; in the exact-rational model the round trip is exact). -/
theorem C5_letterbox_roundtrip (hI wI x y : ℤ) (hh : 1 ≤ hI) (hw : 1 ≤ wI)
    (hx0 : 0 ≤ x) (hxw : x ≤ wI) (hy0 : 0 ≤ y) (hyh : y ≤ hI) :
    (mapBack (letterboxParams hI wI).1 (letterboxParams hI wI).2.1 wI
        (fwdMap (letterboxParams hI wI).1 (letterboxParams hI wI).2.1 x) - x).natAbs ≤ 1
    ∧ (mapBack (letterboxParams hI wI).1 (letterboxParams hI wI).2.2 hI
        (fwdMap (letterboxParams hI wI).1 (letterboxParams hI wI).2.2 y) - y).natAbs ≤ 1 := by
  have hs := scale_pos hh hw
  rw [mapBack_fwdMap hs hx0 hxw, mapBack_fwdMap hs hy0 hyh]
  simp

/-- Witness for C5 at a concrete 100x100 image and point (25, 30). -/
theorem C5_witness :
    (mapBack (letterboxParams 100 100).1 (letterboxParams 100 100).2.1 100
        (fwdMap (letterboxParams 100 100).1 (letterboxParams 100 100).2.1 25) - 25).natAbs ≤ 1
    ∧ (mapBack (letterboxParams 100 100).1 (letterboxParams 100 100).2.2 100
        (fwdMap (letterboxParams 100 100).1 (letterboxParams 100 100).2.2 30) - 30).natAbs ≤ 1 :=
  C5_letterbox_roundtrip 100 100 25 30 (by norm_num) (by norm_num) (by norm_num)
    (by norm_num) (by norm_num) (by norm_num)

/-- Claim C6: the greedy NMS step at IoU threshold 0.45 is idempotent -
applying it to the boxes that survived a first application removes no further
boxes and returns the same list. -/
theorem C6_nms_idempotent (l : List Det) :
    nmsGreedy (45/100) (nmsGreedy (45/100) l) = nmsGreedy (45/100) l :=
  nmsGreedy_idem (45/100) l

/-- Claim C8: when the cropped region is empty after margin expansion and
clamping (`plate_roi.size == 0`), the recognizer returns none immediately and
the OCR backend is never invoked: the result is `none` and does not depend on
the OCR output at all. -/
theorem C8_empty_crop (hF wF x1 y1 x2 y2 : ℤ) (strats strats' : List (List Frag))
    (h : roiEmpty hF wF x1 y1 x2 y2 = true) :
    recognize hF wF x1 y1 x2 y2 strats = none ∧
    recognize hF wF x1 y1 x2 y2 strats = recognize hF wF x1 y1 x2 y2 strats' := by
  unfold recognize
  simp [h]

/-- Witness for C8 at a degenerate box with `x1 == x2 == 30`. -/
theorem C8_witness :
    recognize 100 100 30 10 30 50 [[("XY987ZW", some 90)], [], []] = none ∧
    recognize 100 100 30 10 30 50 [[("XY987ZW", some 90)], [], []] =
      recognize 100 100 30 10 30 50 [] :=
  C8_empty_crop 100 100 30 10 30 50 _ _ (by with_unfolding_all decide)

/-- Claim C9: `detect` is pure and stateless - with the object state threaded
explicitly, one call returns the state unchanged, a second call on the
returned state produces the identical result list, and the result is exactly
the pure function of the stored confidence threshold and the inputs. -/
theorem C9_detect_stateless (pr : PlateRecognizer) (hI wI : ℤ) (rows : List Row)
    (ocr : ℤ → ℤ → ℤ → ℤ → List (List Frag)) :
    (detectCall pr hI wI rows ocr).1 = pr ∧
    (detectCall ((detectCall pr hI wI rows ocr).1) hI wI rows ocr).2 =
      (detectCall pr hI wI rows ocr).2 ∧
    (detectCall pr hI wI rows ocr).2 = detect pr.confidence_threshold hI wI rows ocr :=
  ⟨rfl, rfl, rfl⟩

/-- Claim C10: a sentinel-confidence (-1) fragment contributes its normalized
text to the concatenated candidate but is excluded from the mean confidence;
when every fragment is sentinel the mean is 0; and an individual sentinel
fragment is assigned confidence 0.0, which never passes the 0.3 OCR threshold,
so it never changes the running best. -/
theorem C10_sentinel_conf (fs : List Frag) (t : String) (acc : Option String × ℚ) :
    fullText (fs ++ [(t, none)]) = fullText fs ++ normFull t
    ∧ fullConf (fs ++ [(t, (none : Option ℚ))]) = fullConf fs
    ∧ indivStep acc (t, none) = acc
    ∧ ((∀ f ∈ fs, f.2 = none) → fullConf fs = 0) := by
  have hcv : confVals (fs ++ [(t, none)]) = confVals fs := by
    unfold confVals
    rw [List.filterMap_append]
    simp [List.filterMap]
  refine ⟨?_, ?_, ?_, ?_⟩
  · unfold fullText
    rw [List.map_append, List.foldl_append]
    simp [List.foldl]
  · unfold fullConf
    rw [hcv]
  · unfold indivStep
    have hz : indivConf ((t : String), (none : Option ℚ)).2 = 0 := rfl
    have hcond : ¬ (OCR_CONFIDENCE_THRESHOLD ≤ indivConf ((t : String), (none : Option ℚ)).2
        ∧ plateMatch (normIndiv ((t : String), (none : Option ℚ)).1) = true) := by
      intro hc
      have h1 := hc.1
      rw [hz] at h1
      simp only [OCR_CONFIDENCE_THRESHOLD] at h1
      norm_num at h1
    by_cases htext : normIndiv ((t : String), (none : Option ℚ)).1 = ""
    · simp [htext]
    · simp [htext, hcond]
  · intro h
    have hnil : confVals fs = [] := by
      unfold confVals
      rw [List.filterMap_eq_nil_iff]
      intro f hf
      rw [h f hf]
      rfl
    unfold fullConf
    rw [hnil]
    simp

/-- Witness for C10 at a single sentinel fragment. -/
theorem C10_witness :
    fullConf [(("QQ" : String), (none : Option ℚ))] = 0 ∧
    indivStep ((none : Option String), (0 : ℚ)) ("QQ", none) = (none, 0) := by
  have h := C10_sentinel_conf [("QQ", none)] "QQ" (none, 0)
  refine ⟨h.2.2.2 ?_, h.2.2.1⟩
  intro f hf
  have := List.mem_singleton.mp hf
  subst this
  rfl

end AiTarghe
